import Mathlib

set_option maxHeartbeats 1000000

/-
Verification of the customer-feedback explorer (src/newapp.py).

Strings are modelled as `List Char`.  Python regular-expression searches with
the fixed label patterns `L(.*?)M` / `L(.*)` (re.DOTALL) are modelled by
substring search: `re.search` anchors at the first occurrence of the literal
label `L`, and the non-greedy group ends at the first occurrence of `M` after
it.  Python `str.strip` is modelled on the ASCII whitespace set.
-/

namespace EchoMap

abbrev Str := List Char

/-- Boolean test that `pat` is a prefix of `s`. -/
def isPrefixL : Str → Str → Bool
  | [], _ => true
  | _ :: _, [] => false
  | a :: as, b :: bs => a == b && isPrefixL as bs

/-- Index of the first occurrence of `pat` in `s`, if any. -/
def findIn (pat : Str) : Str → Option Nat
  | [] => if isPrefixL pat [] then some 0 else none
  | c :: rest => if isPrefixL pat (c :: rest) then some 0 else (findIn pat rest).map (· + 1)

/-- `pat` occurs in `s` starting at index `i`. -/
def occursAt (pat s : Str) (i : Nat) : Bool := isPrefixL pat (s.drop i)

/-- All start indices at which `pat` occurs in `s` (ascending). -/
def occurrencesOf (pat s : Str) : List Nat :=
  (List.range (s.length + 1)).filter (fun i => occursAt pat s i)

/-- `s` contains `pat` as a substring. -/
def containsSubstr (s pat : Str) : Bool := (findIn pat s).isSome

/-- The ASCII part of the whitespace set stripped by Python `str.strip()`. -/
def pySpace (c : Char) : Bool :=
  c == ' ' || c == '\t' || c == '\n' || c == '\r' || c == '\x0b' || c == '\x0c'

/-- Python `str.strip()`: remove leading and trailing whitespace. -/
def pyStrip (s : Str) : Str := ((s.dropWhile pySpace).reverse.dropWhile pySpace).reverse

/-- The apostrophe character (written by code so that no string literal in
this file carries one). -/
def apos : Char := Char.ofNat 39

/-- Label `<b>Customer Issue:</b>` from `extract_sections`. -/
def lblIssue : Str := "<b>Customer Issue:</b>".toList

/-- Label `<b>Agent's Actions:</b>` from `extract_sections`. -/
def lblActions : Str := "<b>Agent".toList ++ [apos] ++ "s Actions:</b>".toList

/-- Label `<b>Customer's Anxiety:</b>` from `extract_sections`. -/
def lblAnxiety : Str := "<b>Customer".toList ++ [apos] ++ "s Anxiety:</b>".toList

/-- Label `<b>Important Keywords:</b>` from `extract_sections`. -/
def lblKeywords : Str := "<b>Important Keywords:</b>".toList

/-- `re.search(L(.*?)M, s, re.DOTALL)`: the group is the text between the
first occurrence of `L` and the first occurrence of `M` after it; `none`
when the pattern does not match. -/
def searchBetween (L M s : Str) : Option Str :=
  match findIn L s with
  | none => none
  | some i =>
    match findIn M (s.drop (i + L.length)) with
    | none => none
    | some j => some ((s.drop (i + L.length)).take j)

/-- `re.search(L(.*), s, re.DOTALL)`: the group is everything after the first
occurrence of `L`. -/
def searchAfter (L s : Str) : Option Str :=
  (findIn L s).map (fun i => s.drop (i + L.length))

/-- The four fields produced by `extract_sections` (the `pd.Series` keys
`Customer Issue`, `Agent's Actions`, `Customer's Anxiety`,
`Important Keywords`). -/
structure ExtractedFields where
  customerIssue : Str
  agentActions : Str
  customerAnxiety : Str
  importantKeywords : Str
deriving DecidableEq

/-- `extract_sections` from src/newapp.py: each field is the stripped regex
group when the search matches and the empty string otherwise. -/
def extract_sections (text : Str) : ExtractedFields :=
  { customerIssue := pyStrip ((searchBetween lblIssue lblActions text).getD [])
    agentActions := pyStrip ((searchBetween lblActions lblAnxiety text).getD [])
    customerAnxiety := pyStrip ((searchBetween lblAnxiety lblKeywords text).getD [])
    importantKeywords := pyStrip ((searchAfter lblKeywords text).getD []) }

/-- Helper for `splitUnd`: prepend a character to the first piece. -/
def consHead (c : Char) : List Str → List Str
  | [] => [[c]]
  | p :: ps => (c :: p) :: ps

/-- Python `str.split('_')`: split on every underscore, keeping empty pieces. -/
def splitUnd : Str → List Str
  | [] => [[]]
  | c :: rest => if c = '_' then [] :: splitUnd rest else consHead c (splitUnd rest)

/-- The keyword tokenizer from src/newapp.py line 59:
`[kw.strip() for kw in str(x).split('_') if kw.strip()]`
(`x` is always a string there, so `str(x)` is the identity). -/
def tokenize (raw : Str) : List Str :=
  (splitUnd raw).filterMap (fun kw => if pyStrip kw = [] then none else some (pyStrip kw))

/-- The tokenizer as the specification words it: split on underscore, trim
each piece, and discard the pieces that are empty after trimming. -/
def tokenizeSpec (raw : Str) : List Str :=
  ((splitUnd raw).map pyStrip).filter (fun t => !t.isEmpty)

/-- The well-formed free-text shape of section 6 of the specification: the
four labels in order, with the field bodies in between. -/
def wfText (b1 b2 b3 b4 : Str) : Str :=
  lblIssue ++ b1 ++ lblActions ++ b2 ++ lblAnxiety ++ b3 ++ lblKeywords ++ b4

/-- A free-text value carrying only the first `k` labels (`k ≤ 3`): a text
missing a trailing suffix of the label sequence. -/
def mkTextUpTo (k : Nat) (b1 b2 b3 : Str) : Str :=
  match k with
  | 0 => []
  | 1 => lblIssue ++ b1
  | 2 => lblIssue ++ b1 ++ lblActions ++ b2
  | _ => lblIssue ++ b1 ++ lblActions ++ b2 ++ lblAnxiety ++ b3

/-- The ASCII uppercase/lowercase pairs used by `lowerChar`. -/
def upperLower : List (Char × Char) :=
  [(Char.ofNat 65, Char.ofNat 97), (Char.ofNat 66, Char.ofNat 98),
   (Char.ofNat 67, Char.ofNat 99), (Char.ofNat 68, Char.ofNat 100),
   (Char.ofNat 69, Char.ofNat 101), (Char.ofNat 70, Char.ofNat 102),
   (Char.ofNat 71, Char.ofNat 103), (Char.ofNat 72, Char.ofNat 104),
   (Char.ofNat 73, Char.ofNat 105), (Char.ofNat 74, Char.ofNat 106),
   (Char.ofNat 75, Char.ofNat 107), (Char.ofNat 76, Char.ofNat 108),
   (Char.ofNat 77, Char.ofNat 109), (Char.ofNat 78, Char.ofNat 110),
   (Char.ofNat 79, Char.ofNat 111), (Char.ofNat 80, Char.ofNat 112),
   (Char.ofNat 81, Char.ofNat 113), (Char.ofNat 82, Char.ofNat 114),
   (Char.ofNat 83, Char.ofNat 115), (Char.ofNat 84, Char.ofNat 116),
   (Char.ofNat 85, Char.ofNat 117), (Char.ofNat 86, Char.ofNat 118),
   (Char.ofNat 87, Char.ofNat 119), (Char.ofNat 88, Char.ofNat 120),
   (Char.ofNat 89, Char.ofNat 121), (Char.ofNat 90, Char.ofNat 122)]

/-- Python `str.lower()` on a character, modelled for the ASCII range (the
range the application data uses); other characters are unchanged. -/
def lowerChar (c : Char) : Char :=
  match upperLower.find? (fun p => p.1 == c) with
  | some p => p.2
  | none => c

/-- Python `str.lower()` on a string (ASCII model). -/
def lowerStr (s : Str) : Str := s.map lowerChar

/-- One row of the cleaned working table `df_cleaned`: the four extracted
fields, the keyword list, and the four pass-through columns.  A pass-through
value is `none` when the source cell is missing (NaN) and `some []` when the
whole column is absent (the code assigns the scalar empty string then). -/
structure WorkingRow where
  customerIssue : Str
  agentActions : Str
  customerAnxiety : Str
  importantKeywords : Str
  keywordList : List Str
  aspSlab : Option Str
  analyticBusinessUnit : Option Str
  vipFlag : Option Str
  subSubIssueType : Option Str
deriving DecidableEq

/-- An in-memory tabular file as produced by `read_large_csv` with
`dtype=str`: column names and rows of cells; a missing cell (pandas NaN) is
`none`. -/
structure Table where
  colNames : List Str
  cells : List (List (Option Str))
deriving DecidableEq

/-- pandas `DataFrame.empty`: no rows or no columns. -/
def dfEmpty (df : Table) : Bool := df.cells.isEmpty || df.colNames.isEmpty

/-- The column-name fragment searched for by `load_and_process`. -/
def threadTextKey : Str := "thread_text".toList

/-- Column discovery (line 49): the first column whose lowercased name
contains the substring `thread_text`. -/
def findTextColumn (names : List Str) : Option Nat :=
  names.findIdx? (fun n => containsSubstr (lowerStr n) threadTextKey)

/-- Index of the column with exactly the given name. -/
def colIndexExact (names : List Str) (target : Str) : Option Nat :=
  names.findIdx? (fun n => n == target)

/-- Pass-through column name `ASP_slab`. -/
def aspKey : Str := "ASP_slab".toList

/-- Pass-through column name `analytic_business_unit`. -/
def abuKey : Str := "analytic_business_unit".toList

/-- Pass-through column name `vip_flag`. -/
def vipKey : Str := "vip_flag".toList

/-- Pass-through column name `sub_sub_issue_type`. -/
def ssitKey : Str := "sub_sub_issue_type".toList

/-- Pass-through value for one row (line 64):
`df[col] if col in df.columns else ""`. -/
def passCol (df : Table) (r : List (Option Str)) (target : Str) : Option Str :=
  match colIndexExact df.colNames target with
  | some j => r.getD j none
  | none => some []

/-- Build one WorkingRow from one raw row (lines 55-64).  When the free-text
cell is missing (NaN), `re.search` receives a float and raises `TypeError`,
modelled as `.error ()`. -/
def buildRow (df : Table) (j : Nat) (r : List (Option Str)) : Except Unit WorkingRow :=
  match r.getD j none with
  | none => .error ()
  | some t =>
    .ok { customerIssue := (extract_sections t).customerIssue
          agentActions := (extract_sections t).agentActions
          customerAnxiety := (extract_sections t).customerAnxiety
          importantKeywords := (extract_sections t).importantKeywords
          keywordList := tokenize (extract_sections t).importantKeywords
          aspSlab := passCol df r aspKey
          analyticBusinessUnit := passCol df r abuKey
          vipFlag := passCol df r vipKey
          subSubIssueType := passCol df r ssitKey }

/-- The row-parallel batch step (`swifter.apply` plus the column merges):
order-preserving, failing as soon as any row raises. -/
def batchRows (df : Table) (j : Nat) :
    List (List (Option Str)) → Except Unit (List WorkingRow)
  | [] => .ok []
  | r :: rest =>
    match buildRow df j r, batchRows df j rest with
    | .ok w, .ok ws => .ok (w :: ws)
    | .error e, _ => .error e
    | .ok _, .error e => .error e

/-- Outcome of `load_and_process`: the three `st.error` paths return an empty
DataFrame (pipeline halts, no table shown); an uncaught `TypeError` from a
missing free-text cell aborts the run. -/
inductive LoadResult where
  | readError
  | emptyError
  | missingColumnError
  | typeErrorCrash
  | ok (rows : List WorkingRow)
deriving DecidableEq

/-- `load_and_process` (lines 37-66).  The input is `none` when
`read_large_csv` raises (unreadable or malformed tabular data). -/
def load_and_process : Option Table → LoadResult
  | none => .readError
  | some df =>
    if dfEmpty df then .emptyError
    else
      match findTextColumn df.colNames with
      | none => .missingColumnError
      | some j =>
        match batchRows df j df.cells with
        | .error _ => .typeErrorCrash
        | .ok rows => .ok rows

/-- Python dict counting update `d[k] = d.get(k, 0) + 1`, with dict modelled
as an insertion-ordered association list. -/
def bump : List (Str × Nat) → Str → List (Str × Nat)
  | [], k => [(k, 1)]
  | (k2, v) :: rest, k => if k2 = k then (k2, v + 1) :: rest else (k2, v) :: bump rest k

/-- The `keyword_freq` dictionary (lines 75-78). -/
def keyword_freq (rows : List WorkingRow) : List (Str × Nat) :=
  rows.foldl (fun m r => r.keywordList.foldl bump m) []

/-- Stable insertion into a count-descending list: a new entry goes after all
entries with an equal or larger count. -/
def insertDesc (x : Str × Nat) : List (Str × Nat) → List (Str × Nat)
  | [] => [x]
  | y :: rest => if x.2 ≤ y.2 then y :: insertDesc x rest else x :: y :: rest

/-- Python `sorted(..., key=lambda x: x[1], reverse=True)`: a stable sort by
count descending. -/
def sortCountDesc (l : List (Str × Nat)) : List (Str × Nat) := l.foldr insertDesc []

/-- `sorted_keywords` (line 79). -/
def sorted_keywords (rows : List WorkingRow) : List (Str × Nat) :=
  sortCountDesc (keyword_freq rows)

/-- Sum of the counts of a frequency table. -/
def sumCounts (l : List (Str × Nat)) : Nat := (l.map (fun p => p.2)).sum

/-- The anxiety values kept by lines 84-85: `dropna()` is a no-op because all
extracted fields are strings, then values whose strip is empty are dropped. -/
def anxietyKept (rows : List WorkingRow) : List Str :=
  (rows.map (fun r => r.customerAnxiety)).filter (fun v => !(pyStrip v).isEmpty)

/-- pandas `value_counts()`: per-value multiplicities sorted by count
descending. -/
def value_counts (l : List Str) : List (Str × Nat) := sortCountDesc (l.foldl bump [])

/-- The label of the appended synthetic total entry. -/
def totalLbl : Str := "Total".toList

/-- `anxiety_df_with_total` (lines 84-94): counts per kept anxiety value plus
an appended Total entry holding the column sum. -/
def anxiety_df_with_total (rows : List WorkingRow) : List (Str × Nat) :=
  value_counts (anxietyKept rows) ++
    [(totalLbl, sumCounts (value_counts (anxietyKept rows)))]

/-- `filtered_df_text` (lines 148-151): `keywords` is the comma-split search
input; each piece is stripped, dropped when empty after stripping, and
lowercased; a row matches when its lowercased KeywordList contains one of
the resulting keywords. -/
def filtered_df_text (rows : List WorkingRow) (keywords : List Str) : List WorkingRow :=
  rows.filter (fun r =>
    (keywords.filterMap
        (fun kw => if pyStrip kw = [] then none else some (lowerStr (pyStrip kw)))).any
      (fun kw => (r.keywordList.map lowerStr).contains kw))

/-- The specification predicate for `byAnyKeyword`: the KeywordList contains
at least one of the keywords, compared case-insensitively. -/
def anyKeywordCI (keywords : List Str) (r : WorkingRow) : Bool :=
  keywords.any (fun kw => r.keywordList.any (fun k => lowerStr k == lowerStr kw))

/-- Abstract syntax of the modelled fragment of Python regular expressions:
literals, `.`, the suffix operators `*` `+` `?`, groups, and alternation.
Constructs outside the fragment (classes, anchors, braces, inline flags) are
rejected by the parser. -/
inductive Pat where
  | bot
  | eps
  | lit (c : Char)
  | dot
  | cat (p q : Pat)
  | alt (p q : Pat)
  | star (p : Pat)
deriving DecidableEq

/-- The pattern accepts the empty string. -/
def nullable : Pat → Bool
  | .bot => false
  | .eps => true
  | .lit _ => false
  | .dot => false
  | .cat p q => nullable p && nullable q
  | .alt p q => nullable p || nullable q
  | .star _ => true

/-- Brzozowski derivative.  `.` does not match a newline: `str.contains`
compiles its pattern without `re.DOTALL`. -/
def deriv (p : Pat) (c : Char) : Pat :=
  match p with
  | .bot => .bot
  | .eps => .bot
  | .lit d => if d = c then .eps else .bot
  | .dot => if c = '\n' then .bot else .eps
  | .cat p q => if nullable p then .alt (.cat (deriv p c) q) (deriv q c)
                else .cat (deriv p c) q
  | .alt p q => .alt (deriv p c) (deriv q c)
  | .star p => .cat (deriv p c) (.star p)

/-- Whole-string matching via derivatives. -/
def pmatch (p : Pat) : Str → Bool
  | [] => nullable p
  | c :: rest => pmatch (deriv p c) rest

/-- `re.search` semantics: the pattern matches some contiguous substring. -/
def reSearch (p : Pat) (s : Str) : Bool :=
  (List.range (s.length + 1)).any (fun i =>
    (List.range (s.length - i + 1)).any (fun n => pmatch p ((s.drop i).take n)))

/-- The metacharacters of Python `re` patterns. -/
def metachars : Str :=
  ['.', '^', Char.ofNat 36, '*', '+', '?', Char.ofNat 123, Char.ofNat 125,
   '[', ']', Char.ofNat 92, '|', '(', ')']

/-- An ordinary pattern character, matched literally. -/
def isLiteralChar (c : Char) : Bool := !(metachars.contains c)

/-- One optional repetition suffix (`*`, `+`, `?`) after a parsed atom. -/
def applyReps (a : Pat) (r : Str) : Pat × Str :=
  match r with
  | [] => (a, [])
  | c :: r2 =>
    if c = '*' then (.star a, r2)
    else if c = '+' then (.cat a (.star a), r2)
    else if c = '?' then (.alt a .eps, r2)
    else (a, c :: r2)

/-- Recursive-descent parser for the modelled `re` fragment; `mode` 0 parses
an alternation, 1 a concatenation, any other value one atom; `fuel` bounds
the recursion. -/
def parseP : Nat → Nat → Str → Except Unit (Pat × Str)
  | 0, _, _ => .error ()
  | f + 1, 0, s =>
    match parseP f 1 s with
    | .error e => .error e
    | .ok (p, r) =>
      if r.head? = some '|' then
        match parseP f 0 r.tail with
        | .error e => .error e
        | .ok (q, r3) => .ok (.alt p q, r3)
      else .ok (p, r)
  | f + 1, 1, s =>
    if s = [] ∨ s.head? = some ')' ∨ s.head? = some '|' then .ok (.eps, s)
    else
      match parseP f 2 s with
      | .error e => .error e
      | .ok (a, r) =>
        match parseP f 1 (applyReps a r).2 with
        | .error e => .error e
        | .ok (q, r3) => .ok (.cat (applyReps a r).1 q, r3)
  | f + 1, _, s =>
    match s with
    | [] => .error ()
    | c :: r =>
      if c = '(' then
        match parseP f 0 r with
        | .error e => .error e
        | .ok (p, r2) => if r2.head? = some ')' then .ok (p, r2.tail) else .error ()
      else if c = '.' then .ok (.dot, r)
      else if c = Char.ofNat 92 then
        match r with
        | d :: r2 => if metachars.contains d then .ok (.lit d, r2) else .error ()
        | [] => .error ()
      else if isLiteralChar c then .ok (.lit c, r)
      else .error ()

/-- Parse a whole pattern; leftover input (a stray `)`) is an error,
matching `re.error` for unbalanced parentheses. -/
def parseRe (s : Str) : Except Unit Pat :=
  match parseP (2 * s.length + 2) 0 s with
  | .error e => .error e
  | .ok (p, []) => .ok p
  | .ok (_, _ :: _) => .error ()

/-- The pattern matching exactly one literal string. -/
def litPat : Str → Pat
  | [] => .eps
  | c :: rest => .cat (.lit c) (litPat rest)

/-- Case-insensitive substring containment: the specification semantics of
`byTextContains`. -/
def ciContains (v s : Str) : Bool := containsSubstr (lowerStr v) (lowerStr s)

/-- `filtered_issue_df` (line 159): pandas
`str.contains(s, case=False, na=False)` compiles `s` as a regular expression
with IGNORECASE (modelled by lowercasing pattern and value, equivalent on
the ASCII fragment) and searches each Customer Issue value; a pattern that
fails to compile raises `re.error`, modelled as `.error`. -/
def filtered_issue_df (rows : List WorkingRow) (s : Str) :
    Except Unit (List WorkingRow) :=
  match parseRe (lowerStr s) with
  | .error e => .error e
  | .ok p => .ok (rows.filter (fun r => reSearch p (lowerStr r.customerIssue)))

/-- `filtered_action_df` (line 166): the same search on Agent's Actions. -/
def filtered_action_df (rows : List WorkingRow) (s : Str) :
    Except Unit (List WorkingRow) :=
  match parseRe (lowerStr s) with
  | .error e => .error e
  | .ok p => .ok (rows.filter (fun r => reSearch p (lowerStr r.agentActions)))

-- THEOREMS

/-- Leading part of list-comprehension semantics: mapping then filtering on
non-emptiness agrees with the filterMap used to model the comprehension. -/
theorem map_filter_eq_filterMap (l : List Str) :
    (l.map pyStrip).filter (fun t => !t.isEmpty) =
      l.filterMap (fun kw => if pyStrip kw = [] then none else some (pyStrip kw)) := by
  induction l with
  | nil => rfl
  | cons a l ih =>
    by_cases h : pyStrip a = []
    · simp [List.filter_cons, List.filterMap_cons, h, ih, List.isEmpty_iff]
    · simp [List.filter_cons, List.filterMap_cons, h, ih, List.isEmpty_iff]

/-- Claim C5: `tokenize(raw)` equals the sequence obtained by splitting `raw`
on the underscore character, trimming each piece and discarding the pieces
that are empty after trimming (order and duplicates preserved); in particular
`tokenize("a_ _b_c_") = ["a", "b", "c"]`. -/
theorem tokenize_matches_spec :
    (∀ raw : Str, tokenize raw = tokenizeSpec raw) ∧
      tokenize "a_ _b_c_".toList = [['a'], ['b'], ['c']] := by
  constructor
  · intro raw
    exact (map_filter_eq_filterMap (splitUnd raw)).symm
  · decide

/-- A list is a prefix of itself followed by anything. -/
theorem isPrefixL_self_append (p t : Str) : isPrefixL p (p ++ t) = true := by
  induction p with
  | nil => rfl
  | cons a as ih => simp [isPrefixL, ih]

/-- Characterisation of the Boolean prefix test. -/
theorem isPrefixL_iff_append (p q : Str) : isPrefixL p q = true ↔ ∃ t, q = p ++ t := by
  induction p generalizing q with
  | nil =>
    simp only [isPrefixL, List.nil_append, true_iff]
    exact ⟨q, rfl⟩
  | cons a as ih =>
    cases q with
    | nil => simp [isPrefixL]
    | cons b bs =>
      simp only [isPrefixL, Bool.and_eq_true, beq_iff_eq, ih, List.cons_append,
        List.cons.injEq]
      constructor
      · rintro ⟨rfl, t, rfl⟩
        exact ⟨t, rfl, rfl⟩
      · rintro ⟨t, rfl, rfl⟩
        exact ⟨rfl, t, rfl⟩

/-- A prefix is no longer than the whole. -/
theorem isPrefixL_length {p q : Str} (h : isPrefixL p q = true) : p.length ≤ q.length := by
  obtain ⟨t, rfl⟩ := (isPrefixL_iff_append p q).1 h
  simp

/-- Extending the right-hand side preserves the prefix test. -/
theorem isPrefixL_append_right {p a : Str} (t : Str) (h : isPrefixL p a = true) :
    isPrefixL p (a ++ t) = true := by
  obtain ⟨u, rfl⟩ := (isPrefixL_iff_append p a).1 h
  rw [List.append_assoc]
  exact isPrefixL_self_append p (u ++ t)

/-- Only the empty list is a prefix of the empty list. -/
theorem isPrefixL_nil {p : Str} (h : isPrefixL p [] = true) : p = [] := by
  cases p with
  | nil => rfl
  | cons a as => simp [isPrefixL] at h

/-- A prefix of a `take` is a prefix of the whole list. -/
theorem isPrefixL_of_take {p q : Str} {m : Nat} (h : isPrefixL p (q.take m) = true) :
    isPrefixL p q = true := by
  obtain ⟨t, ht⟩ := (isPrefixL_iff_append p (q.take m)).1 h
  have : q = p ++ (t ++ q.drop m) := by
    rw [← List.append_assoc, ← ht, List.take_append_drop]
  exact (isPrefixL_iff_append p q).2 ⟨t ++ q.drop m, this⟩

/-- Occurrence inside a dropped suffix shifts the index. -/
theorem occursAt_drop (pat s : Str) (k j : Nat) :
    occursAt pat (s.drop k) j = occursAt pat s (k + j) := by
  unfold occursAt
  rw [List.drop_drop]

/-- A pattern occurs right after the chunk preceding it. -/
theorem occursAt_shape (pat u w : Str) : occursAt pat (u ++ (pat ++ w)) u.length = true := by
  unfold occursAt
  rw [List.drop_left]
  exact isPrefixL_self_append pat w

/-- A non-empty pattern occurring at `j` fits inside the string. -/
theorem occursAt_bound {pat s : Str} {j : Nat} (hpat : pat ≠ []) (h : occursAt pat s j = true) :
    j + pat.length ≤ s.length := by
  unfold occursAt at h
  have hlen := isPrefixL_length h
  simp only [List.length_drop] at hlen
  by_cases hj : j ≤ s.length
  · omega
  · exfalso
    rw [List.drop_eq_nil_of_le (by omega)] at h
    exact hpat (isPrefixL_nil h)

/-- When a pattern occurs exactly once, `findIn` returns that index. -/
theorem findIn_some_of_unique {pat s : Str} {p : Nat}
    (h1 : occursAt pat s p = true) (h2 : ∀ j, occursAt pat s j = true → j = p) :
    findIn pat s = some p := by
  induction s generalizing p with
  | nil =>
    have hp : pat = [] := by
      apply isPrefixL_nil
      simpa [occursAt] using h1
    have h0 : (0 : Nat) = p := h2 0 (by simp [occursAt, hp, isPrefixL])
    subst hp
    simp [findIn, isPrefixL, ← h0]
  | cons c rest ih =>
    by_cases hpre : isPrefixL pat (c :: rest) = true
    · have h0 : (0 : Nat) = p := h2 0 (by simpa [occursAt] using hpre)
      simp [findIn, hpre, ← h0]
    · cases p with
      | zero => exact absurd (by simpa [occursAt] using h1) hpre
      | succ q =>
        have h1r : occursAt pat rest q = true := h1
        have h2r : ∀ j, occursAt pat rest j = true → j = q := by
          intro j hj
          have hs : occursAt pat (c :: rest) (j + 1) = true := hj
          have := h2 (j + 1) hs
          omega
        simp [findIn, hpre, ih h1r h2r]

/-- When a pattern occurs nowhere, `findIn` fails. -/
theorem findIn_none_of_none {pat s : Str} (h : ∀ j, occursAt pat s j = false) :
    findIn pat s = none := by
  induction s with
  | nil =>
    have h0 := h 0
    simp only [occursAt, List.drop_nil] at h0
    simp [findIn, h0]
  | cons c rest ih =>
    have h0 := h 0
    simp only [occursAt, List.drop_zero] at h0
    have hrest : ∀ j, occursAt pat rest j = false := fun j => h (j + 1)
    simp [findIn, h0, ih hrest]

/-- A successful `findIn` yields an occurrence. -/
theorem occursAt_of_findIn_some {pat s : Str} {i : Nat} (h : findIn pat s = some i) :
    occursAt pat s i = true := by
  induction s generalizing i with
  | nil =>
    unfold findIn at h
    by_cases hp : isPrefixL pat [] = true
    · simp [hp] at h
      subst h
      simpa [occursAt] using hp
    · simp [hp] at h
  | cons c rest ih =>
    unfold findIn at h
    by_cases hp : isPrefixL pat (c :: rest) = true
    · simp [hp] at h
      subst h
      simpa [occursAt] using hp
    · simp [hp] at h
      obtain ⟨i2, hi2, rfl⟩ := h
      exact ih hi2

/-- A failed `findIn` means the pattern occurs nowhere. -/
theorem occursAt_false_of_findIn_none {pat s : Str} (h : findIn pat s = none) :
    ∀ j, occursAt pat s j = false := by
  induction s with
  | nil =>
    intro j
    unfold findIn at h
    by_cases hp : isPrefixL pat [] = true
    · simp [hp] at h
    · simpa [occursAt, List.drop_nil] using hp
  | cons c rest ih =>
    intro j
    unfold findIn at h
    by_cases hp : isPrefixL pat (c :: rest) = true
    · simp [hp] at h
    · simp [hp, Option.map_eq_none'] at h
      cases j with
      | zero => simpa [occursAt] using hp
      | succ q => exact ih h q

/-- Bridge from the decidable occurrence list to a unique occurrence. -/
theorem occurrencesOf_single {pat s : Str} {p : Nat} (hpat : pat ≠ [])
    (h : occurrencesOf pat s = [p]) :
    occursAt pat s p = true ∧ ∀ j, occursAt pat s j = true → j = p := by
  constructor
  · have hmem : p ∈ occurrencesOf pat s := by
      rw [h]
      exact List.mem_singleton.2 rfl
    simp only [occurrencesOf, List.mem_filter] at hmem
    exact hmem.2
  · intro j hj
    have hjle : j ≤ s.length := by
      by_contra hgt
      rw [occursAt, List.drop_eq_nil_of_le (by omega)] at hj
      exact hpat (isPrefixL_nil hj)
    have hmem : j ∈ occurrencesOf pat s := by
      simp only [occurrencesOf, List.mem_filter, List.mem_range]
      exact ⟨by omega, hj⟩
    rw [h] at hmem
    simpa using hmem

/-- Bridge from the empty occurrence list to absence everywhere. -/
theorem occursAt_false_of_occurrencesOf_nil {pat s : Str} (hpat : pat ≠ [])
    (h : occurrencesOf pat s = []) : ∀ j, occursAt pat s j = false := by
  intro j
  cases hcc : occursAt pat s j with
  | false => rfl
  | true =>
    exfalso
    by_cases hjle : j ≤ s.length
    · have hmem : j ∈ occurrencesOf pat s := by
        simp only [occurrencesOf, List.mem_filter, List.mem_range]
        exact ⟨by omega, hcc⟩
      rw [h] at hmem
      simp at hmem
    · rw [occursAt, List.drop_eq_nil_of_le (by omega)] at hcc
      exact hpat (isPrefixL_nil hcc)

/-- A non-greedy between-labels search on a text where both labels occur
exactly once, at the expected places, yields the body between them. -/
theorem searchBetween_eq {L M s : Str} (u mid w : Str)
    (hs : s = u ++ (L ++ (mid ++ (M ++ w))))
    (hL : ∀ j, occursAt L s j = true → j = u.length)
    (hM : ∀ j, occursAt M s j = true → j = u.length + L.length + mid.length) :
    searchBetween L M s = some mid := by
  subst hs
  have hocc : occursAt L (u ++ (L ++ (mid ++ (M ++ w)))) u.length = true :=
    occursAt_shape L u (mid ++ (M ++ w))
  have hfind : findIn L (u ++ (L ++ (mid ++ (M ++ w)))) = some u.length :=
    findIn_some_of_unique hocc hL
  have hdrop : (u ++ (L ++ (mid ++ (M ++ w)))).drop (u.length + L.length) =
      mid ++ (M ++ w) := by
    rw [show u ++ (L ++ (mid ++ (M ++ w))) = (u ++ L) ++ (mid ++ (M ++ w)) by simp,
      show u.length + L.length = (u ++ L).length by simp, List.drop_left]
  have hMdrop : ∀ j, occursAt M (mid ++ (M ++ w)) j = true → j = mid.length := by
    intro j hj
    rw [← hdrop, occursAt_drop] at hj
    have := hM _ hj
    omega
  have hoccM : occursAt M (mid ++ (M ++ w)) mid.length = true := occursAt_shape M mid w
  have hfindM : findIn M (mid ++ (M ++ w)) = some mid.length :=
    findIn_some_of_unique hoccM hMdrop
  simp only [searchBetween, hfind, hdrop, hfindM]
  rw [List.take_left]

/-- The between-labels search fails when the closing label is absent. -/
theorem searchBetween_none_noM {L M s : Str} (hM : ∀ j, occursAt M s j = false) :
    searchBetween L M s = none := by
  have hfm : ∀ i, findIn M (s.drop (i + L.length)) = none := by
    intro i
    apply findIn_none_of_none
    intro j
    rw [occursAt_drop]
    exact hM _
  unfold searchBetween
  cases hf : findIn L s with
  | none => rfl
  | some i => simp [hfm i]

/-- The between-labels search fails when the opening label is absent. -/
theorem searchBetween_none_noL {L M s : Str} (hL : ∀ j, occursAt L s j = false) :
    searchBetween L M s = none := by
  unfold searchBetween
  rw [findIn_none_of_none hL]

/-- The to-end-of-text search on a text where the label occurs exactly once
yields everything after the label. -/
theorem searchAfter_eq {L s : Str} (u w : Str) (hs : s = u ++ (L ++ w))
    (hL : ∀ j, occursAt L s j = true → j = u.length) :
    searchAfter L s = some w := by
  subst hs
  have hocc : occursAt L (u ++ (L ++ w)) u.length = true := occursAt_shape L u w
  have hfind : findIn L (u ++ (L ++ w)) = some u.length := findIn_some_of_unique hocc hL
  have hdrop : (u ++ (L ++ w)).drop (u.length + L.length) = w := by
    rw [show u ++ (L ++ w) = (u ++ L) ++ w by simp,
      show u.length + L.length = (u ++ L).length by simp, List.drop_left]
  simp only [searchAfter, hfind, Option.map_some']
  rw [hdrop]

/-- The to-end-of-text search fails when the label is absent. -/
theorem searchAfter_none {L s : Str} (hL : ∀ j, occursAt L s j = false) :
    searchAfter L s = none := by
  unfold searchAfter
  rw [findIn_none_of_none hL]
  rfl

/-- `dropWhile` removes a prefix of the list. -/
theorem dropWhile_exists_append (p : Char → Bool) (l : Str) :
    ∃ u, l = u ++ l.dropWhile p := by
  induction l with
  | nil => exact ⟨[], rfl⟩
  | cons c rest ih =>
    by_cases hc : p c = true
    · obtain ⟨u, hu⟩ := ih
      refine ⟨c :: u, ?_⟩
      simp [List.dropWhile_cons, hc]
      exact hu
    · refine ⟨[], ?_⟩
      simp [List.dropWhile_cons, hc]

/-- The stripped string sits inside the original as a contiguous block. -/
theorem pyStrip_infix (b : Str) : ∃ u w, b = u ++ (pyStrip b ++ w) := by
  obtain ⟨u1, hu1⟩ := dropWhile_exists_append pySpace b
  obtain ⟨u2, hu2⟩ := dropWhile_exists_append pySpace (b.dropWhile pySpace).reverse
  refine ⟨u1, u2.reverse, ?_⟩
  have hA : b.dropWhile pySpace = pyStrip b ++ u2.reverse := by
    have := congrArg List.reverse hu2
    simpa [pyStrip, List.reverse_append] using this
  conv_lhs => rw [hu1, hA]

/-- An occurrence inside an embedded block lifts to the surrounding string. -/
theorem occursAt_embed {pat b : Str} (u w : Str) {j : Nat}
    (hj : j + pat.length ≤ b.length) (h : occursAt pat b j = true) :
    occursAt pat (u ++ (b ++ w)) (u.length + j) = true := by
  unfold occursAt at h ⊢
  rw [show u ++ (b ++ w) = (u ++ b) ++ w by simp]
  have hdrop : ((u ++ b) ++ w).drop (u.length + j) = b.drop j ++ w := by
    rw [List.drop_append_eq_append_drop]
    have h1 : (u ++ b).drop (u.length + j) = b.drop j := by
      rw [List.drop_append]
    have h2 : u.length + j - (u ++ b).length = 0 := by
      simp only [List.length_append]
      omega
    rw [h1, h2, List.drop_zero]
  rw [hdrop]
  exact isPrefixL_append_right w h

/-- An occurrence of a non-empty pattern in the stripped body lifts to an
occurrence in the unstripped body, inside its bounds. -/
theorem occursAt_pyStrip_lift {pat b : Str} {j : Nat} (hpat : pat ≠ [])
    (h : occursAt pat (pyStrip b) j = true) :
    ∃ j2, occursAt pat b j2 = true ∧ j2 + pat.length ≤ b.length := by
  obtain ⟨u, w, hb⟩ := pyStrip_infix b
  have hj : j + pat.length ≤ (pyStrip b).length := occursAt_bound hpat h
  refine ⟨u.length + j, ?_, ?_⟩
  · rw [hb]
    exact occursAt_embed u w hj h
  · rw [hb]
    simp only [List.length_append]
    omega

/-- No occurrence of a uniquely-placed label inside a stripped body that
lies entirely on one side of the label position. -/
theorem noLabelInStrip {pat s : Str} (u b w : Str) (p : Nat) (j : Nat)
    (hpat : pat ≠ [])
    (hs : s = u ++ (b ++ w))
    (hU : ∀ i, occursAt pat s i = true → i = p)
    (hp : p < u.length ∨ u.length + b.length < p + pat.length) :
    occursAt pat (pyStrip b) j = false := by
  cases hcc : occursAt pat (pyStrip b) j with
  | false => rfl
  | true =>
    exfalso
    obtain ⟨j2, hocc, hle⟩ := occursAt_pyStrip_lift hpat hcc
    have hlift : occursAt pat s (u.length + j2) = true := by
      rw [hs]
      exact occursAt_embed u w hle hocc
    have := hU _ hlift
    omega

/-- Stripping the empty string yields the empty string. -/
theorem pyStrip_nil : pyStrip [] = [] := rfl

/-- Claim C4: on well-formed text containing all four labels in their fixed
order (each label occurring exactly once, at its structural position),
`extract_sections` returns, for each of the first three fields, exactly the
trimmed body between the field label and the next label, and for the fourth
field the trimmed body after its label, with no label text occurring in any
field value. -/
theorem extract_wellformed_all_labels (b1 b2 b3 b4 : Str)
    (h1 : occurrencesOf lblIssue (wfText b1 b2 b3 b4) = [0])
    (h2 : occurrencesOf lblActions (wfText b1 b2 b3 b4) = [lblIssue.length + b1.length])
    (h3 : occurrencesOf lblAnxiety (wfText b1 b2 b3 b4) =
      [lblIssue.length + b1.length + lblActions.length + b2.length])
    (h4 : occurrencesOf lblKeywords (wfText b1 b2 b3 b4) =
      [lblIssue.length + b1.length + lblActions.length + b2.length +
        lblAnxiety.length + b3.length]) :
    extract_sections (wfText b1 b2 b3 b4) =
      ⟨pyStrip b1, pyStrip b2, pyStrip b3, pyStrip b4⟩ ∧
      ∀ lbl ∈ [lblIssue, lblActions, lblAnxiety, lblKeywords],
        ∀ f ∈ [pyStrip b1, pyStrip b2, pyStrip b3, pyStrip b4],
          ∀ j, occursAt lbl f j = false := by
  obtain ⟨ho1, hU1⟩ := occurrencesOf_single (by decide) h1
  obtain ⟨ho2, hU2⟩ := occurrencesOf_single (by decide) h2
  obtain ⟨ho3, hU3⟩ := occurrencesOf_single (by decide) h3
  obtain ⟨ho4, hU4⟩ := occurrencesOf_single (by decide) h4
  have hpos1 : 0 < lblIssue.length := by decide
  have hpos2 : 0 < lblActions.length := by decide
  have hpos3 : 0 < lblAnxiety.length := by decide
  have hpos4 : 0 < lblKeywords.length := by decide
  constructor
  · have e1 : searchBetween lblIssue lblActions (wfText b1 b2 b3 b4) = some b1 := by
      apply searchBetween_eq [] b1 (b2 ++ (lblAnxiety ++ (b3 ++ (lblKeywords ++ b4))))
      · simp [wfText, List.append_assoc]
      · intro j hj
        simpa using hU1 j hj
      · intro j hj
        have := hU2 j hj
        simp only [List.length_nil]
        omega
    have e2 : searchBetween lblActions lblAnxiety (wfText b1 b2 b3 b4) = some b2 := by
      apply searchBetween_eq (lblIssue ++ b1) b2 (b3 ++ (lblKeywords ++ b4))
      · simp [wfText, List.append_assoc]
      · intro j hj
        have := hU2 j hj
        simp only [List.length_append]
        omega
      · intro j hj
        have := hU3 j hj
        simp only [List.length_append]
        omega
    have e3 : searchBetween lblAnxiety lblKeywords (wfText b1 b2 b3 b4) = some b3 := by
      apply searchBetween_eq (lblIssue ++ b1 ++ lblActions ++ b2) b3 b4
      · simp [wfText, List.append_assoc]
      · intro j hj
        have := hU3 j hj
        simp only [List.length_append]
        omega
      · intro j hj
        have := hU4 j hj
        simp only [List.length_append]
        omega
    have e4 : searchAfter lblKeywords (wfText b1 b2 b3 b4) = some b4 := by
      apply searchAfter_eq (lblIssue ++ b1 ++ lblActions ++ b2 ++ lblAnxiety ++ b3) b4
      · simp [wfText, List.append_assoc]
      · intro j hj
        have := hU4 j hj
        simp only [List.length_append]
        omega
    simp [extract_sections, e1, e2, e3, e4]
  · intro lbl hlbl f hf j
    simp only [List.mem_cons, List.not_mem_nil, or_false] at hlbl hf
    rcases hlbl with rfl | rfl | rfl | rfl
    · rcases hf with rfl | rfl | rfl | rfl
      · exact noLabelInStrip lblIssue b1
          (lblActions ++ (b2 ++ (lblAnxiety ++ (b3 ++ (lblKeywords ++ b4))))) 0 j
          (by decide) (by simp [wfText, List.append_assoc]) hU1
          (by omega)
      · exact noLabelInStrip (lblIssue ++ b1 ++ lblActions) b2
          (lblAnxiety ++ (b3 ++ (lblKeywords ++ b4))) 0 j
          (by decide) (by simp [wfText, List.append_assoc]) hU1
          (by simp only [List.length_append]; omega)
      · exact noLabelInStrip (lblIssue ++ b1 ++ lblActions ++ b2 ++ lblAnxiety) b3
          (lblKeywords ++ b4) 0 j
          (by decide) (by simp [wfText, List.append_assoc]) hU1
          (by simp only [List.length_append]; omega)
      · exact noLabelInStrip
          (lblIssue ++ b1 ++ lblActions ++ b2 ++ lblAnxiety ++ b3 ++ lblKeywords) b4 [] 0 j
          (by decide) (by simp [wfText, List.append_assoc]) hU1
          (by simp only [List.length_append]; omega)
    · rcases hf with rfl | rfl | rfl | rfl
      · exact noLabelInStrip lblIssue b1
          (lblActions ++ (b2 ++ (lblAnxiety ++ (b3 ++ (lblKeywords ++ b4)))))
          (lblIssue.length + b1.length) j
          (by decide) (by simp [wfText, List.append_assoc]) hU2
          (by omega)
      · exact noLabelInStrip (lblIssue ++ b1 ++ lblActions) b2
          (lblAnxiety ++ (b3 ++ (lblKeywords ++ b4))) (lblIssue.length + b1.length) j
          (by decide) (by simp [wfText, List.append_assoc]) hU2
          (by simp only [List.length_append]; omega)
      · exact noLabelInStrip (lblIssue ++ b1 ++ lblActions ++ b2 ++ lblAnxiety) b3
          (lblKeywords ++ b4) (lblIssue.length + b1.length) j
          (by decide) (by simp [wfText, List.append_assoc]) hU2
          (by simp only [List.length_append]; omega)
      · exact noLabelInStrip
          (lblIssue ++ b1 ++ lblActions ++ b2 ++ lblAnxiety ++ b3 ++ lblKeywords) b4 []
          (lblIssue.length + b1.length) j
          (by decide) (by simp [wfText, List.append_assoc]) hU2
          (by simp only [List.length_append]; omega)
    · rcases hf with rfl | rfl | rfl | rfl
      · exact noLabelInStrip lblIssue b1
          (lblActions ++ (b2 ++ (lblAnxiety ++ (b3 ++ (lblKeywords ++ b4)))))
          (lblIssue.length + b1.length + lblActions.length + b2.length) j
          (by decide) (by simp [wfText, List.append_assoc]) hU3
          (by omega)
      · exact noLabelInStrip (lblIssue ++ b1 ++ lblActions) b2
          (lblAnxiety ++ (b3 ++ (lblKeywords ++ b4)))
          (lblIssue.length + b1.length + lblActions.length + b2.length) j
          (by decide) (by simp [wfText, List.append_assoc]) hU3
          (by simp only [List.length_append]; omega)
      · exact noLabelInStrip (lblIssue ++ b1 ++ lblActions ++ b2 ++ lblAnxiety) b3
          (lblKeywords ++ b4)
          (lblIssue.length + b1.length + lblActions.length + b2.length) j
          (by decide) (by simp [wfText, List.append_assoc]) hU3
          (by simp only [List.length_append]; omega)
      · exact noLabelInStrip
          (lblIssue ++ b1 ++ lblActions ++ b2 ++ lblAnxiety ++ b3 ++ lblKeywords) b4 []
          (lblIssue.length + b1.length + lblActions.length + b2.length) j
          (by decide) (by simp [wfText, List.append_assoc]) hU3
          (by simp only [List.length_append]; omega)
    · rcases hf with rfl | rfl | rfl | rfl
      · exact noLabelInStrip lblIssue b1
          (lblActions ++ (b2 ++ (lblAnxiety ++ (b3 ++ (lblKeywords ++ b4)))))
          (lblIssue.length + b1.length + lblActions.length + b2.length +
            lblAnxiety.length + b3.length) j
          (by decide) (by simp [wfText, List.append_assoc]) hU4
          (by omega)
      · exact noLabelInStrip (lblIssue ++ b1 ++ lblActions) b2
          (lblAnxiety ++ (b3 ++ (lblKeywords ++ b4)))
          (lblIssue.length + b1.length + lblActions.length + b2.length +
            lblAnxiety.length + b3.length) j
          (by decide) (by simp [wfText, List.append_assoc]) hU4
          (by simp only [List.length_append]; omega)
      · exact noLabelInStrip (lblIssue ++ b1 ++ lblActions ++ b2 ++ lblAnxiety) b3
          (lblKeywords ++ b4)
          (lblIssue.length + b1.length + lblActions.length + b2.length +
            lblAnxiety.length + b3.length) j
          (by decide) (by simp [wfText, List.append_assoc]) hU4
          (by simp only [List.length_append]; omega)
      · exact noLabelInStrip
          (lblIssue ++ b1 ++ lblActions ++ b2 ++ lblAnxiety ++ b3 ++ lblKeywords) b4 []
          (lblIssue.length + b1.length + lblActions.length + b2.length +
            lblAnxiety.length + b3.length) j
          (by decide) (by simp [wfText, List.append_assoc]) hU4
          (by simp only [List.length_append]; omega)

/-- Witness for the well-formed extraction theorem at a concrete text. -/
theorem extract_wellformed_all_labels_witness :
    occurrencesOf lblIssue (wfText [Char.ofNat 97] [Char.ofNat 98] [Char.ofNat 99]
        [Char.ofNat 100]) = [0] ∧
    extract_sections (wfText [Char.ofNat 97] [Char.ofNat 98] [Char.ofNat 99]
        [Char.ofNat 100]) =
      ⟨[Char.ofNat 97], [Char.ofNat 98], [Char.ofNat 99], [Char.ofNat 100]⟩ := by
  constructor
  · decide
  · have h := extract_wellformed_all_labels [Char.ofNat 97] [Char.ofNat 98] [Char.ofNat 99]
      [Char.ofNat 100] (by decide) (by decide) (by decide) (by decide)
    rw [h.1]
    decide

/-- Claim C1 (amended): for text carrying only the first `k` labels (a
trailing suffix of the label list is missing), every field whose own label is
missing is empty, the field immediately preceding the first missing label is
also empty (its terminating label is absent), and every earlier field whose
label and successor label are both present gets the trimmed between-labels
value. -/
theorem extract_trailing_missing (k : Nat) (b1 b2 b3 : Str) (hk : k ≤ 3)
    (h1 : occurrencesOf lblIssue (mkTextUpTo k b1 b2 b3) = if 1 ≤ k then [0] else [])
    (h2 : occurrencesOf lblActions (mkTextUpTo k b1 b2 b3) =
      if 2 ≤ k then [lblIssue.length + b1.length] else [])
    (h3 : occurrencesOf lblAnxiety (mkTextUpTo k b1 b2 b3) =
      if 3 ≤ k then [lblIssue.length + b1.length + lblActions.length + b2.length] else [])
    (h4 : occurrencesOf lblKeywords (mkTextUpTo k b1 b2 b3) = []) :
    extract_sections (mkTextUpTo k b1 b2 b3) =
      ⟨if 2 ≤ k then pyStrip b1 else [], if 3 ≤ k then pyStrip b2 else [], [], []⟩ := by
  have n4 := @occursAt_false_of_occurrencesOf_nil lblKeywords _ (by decide) h4
  interval_cases k
  · simp only [show ¬ (1 ≤ 0) by omega, if_false] at h1
    simp only [show ¬ (2 ≤ 0) by omega, if_false] at h2
    simp only [show ¬ (3 ≤ 0) by omega, if_false] at h3
    have n1 := @occursAt_false_of_occurrencesOf_nil lblIssue _ (by decide) h1
    have n2 := @occursAt_false_of_occurrencesOf_nil lblActions _ (by decide) h2
    have n3 := @occursAt_false_of_occurrencesOf_nil lblAnxiety _ (by decide) h3
    have s1 := @searchBetween_none_noL _ lblActions _ n1
    have s2 := @searchBetween_none_noL _ lblAnxiety _ n2
    have s3 := @searchBetween_none_noL _ lblKeywords _ n3
    have s4 := searchAfter_none n4
    simp [extract_sections, s1, s2, s3, s4, pyStrip_nil]
  · simp only [show (1 ≤ 1) by omega, if_true] at h1
    simp only [show ¬ (2 ≤ 1) by omega, if_false] at h2
    simp only [show ¬ (3 ≤ 1) by omega, if_false] at h3
    have n2 := @occursAt_false_of_occurrencesOf_nil lblActions _ (by decide) h2
    have n3 := @occursAt_false_of_occurrencesOf_nil lblAnxiety _ (by decide) h3
    have s1 := @searchBetween_none_noM lblIssue _ _ n2
    have s2 := @searchBetween_none_noL _ lblAnxiety _ n2
    have s3 := @searchBetween_none_noL _ lblKeywords _ n3
    have s4 := searchAfter_none n4
    simp [extract_sections, s1, s2, s3, s4, pyStrip_nil]
  · simp only [show (1 ≤ 2) by omega, if_true] at h1
    simp only [show (2 ≤ 2) by omega, if_true] at h2
    simp only [show ¬ (3 ≤ 2) by omega, if_false] at h3
    obtain ⟨ho1, hU1⟩ := occurrencesOf_single (by decide) h1
    obtain ⟨ho2, hU2⟩ := occurrencesOf_single (by decide) h2
    have n3 := @occursAt_false_of_occurrencesOf_nil lblAnxiety _ (by decide) h3
    have s1 : searchBetween lblIssue lblActions (mkTextUpTo 2 b1 b2 b3) = some b1 := by
      apply searchBetween_eq [] b1 b2
      · simp [mkTextUpTo, List.append_assoc]
      · intro j hj
        simpa using hU1 j hj
      · intro j hj
        have := hU2 j hj
        simp only [List.length_nil]
        omega
    have s2 := @searchBetween_none_noM lblActions _ _ n3
    have s3 := @searchBetween_none_noL _ lblKeywords _ n3
    have s4 := searchAfter_none n4
    simp [extract_sections, s1, s2, s3, s4, pyStrip_nil]
  · simp only [show (1 ≤ 3) by omega, if_true] at h1
    simp only [show (2 ≤ 3) by omega, if_true] at h2
    simp only [show (3 ≤ 3) by omega, if_true] at h3
    obtain ⟨ho1, hU1⟩ := occurrencesOf_single (by decide) h1
    obtain ⟨ho2, hU2⟩ := occurrencesOf_single (by decide) h2
    obtain ⟨ho3, hU3⟩ := occurrencesOf_single (by decide) h3
    have s1 : searchBetween lblIssue lblActions (mkTextUpTo 3 b1 b2 b3) = some b1 := by
      apply searchBetween_eq [] b1 (b2 ++ (lblAnxiety ++ b3))
      · simp [mkTextUpTo, List.append_assoc]
      · intro j hj
        simpa using hU1 j hj
      · intro j hj
        have := hU2 j hj
        simp only [List.length_nil]
        omega
    have s2 : searchBetween lblActions lblAnxiety (mkTextUpTo 3 b1 b2 b3) = some b2 := by
      apply searchBetween_eq (lblIssue ++ b1) b2 b3
      · simp [mkTextUpTo, List.append_assoc]
      · intro j hj
        have := hU2 j hj
        simp only [List.length_append]
        omega
      · intro j hj
        have := hU3 j hj
        simp only [List.length_append]
        omega
    have s3 := @searchBetween_none_noM lblAnxiety _ _ n4
    have s4 := searchAfter_none n4
    simp [extract_sections, s1, s2, s3, s4, pyStrip_nil]

/-- Claim C1 counterexample: with the first three labels present and only the
trailing `Important Keywords` label missing, the code also empties the
anxiety field, whose own label IS present and which is upstream of the
missing label — so a missing label does not default only its own field and
its downstream fields. -/
theorem extract_trailing_missing_counterexample :
    occurrencesOf lblAnxiety
        (mkTextUpTo 3 [Char.ofNat 97] [Char.ofNat 98] [Char.ofNat 99]) ≠ [] ∧
    occurrencesOf lblKeywords
        (mkTextUpTo 3 [Char.ofNat 97] [Char.ofNat 98] [Char.ofNat 99]) = [] ∧
    (extract_sections
        (mkTextUpTo 3 [Char.ofNat 97] [Char.ofNat 98] [Char.ofNat 99])).customerAnxiety
      = [] := by
  refine ⟨by decide, by decide, by decide⟩

/-- Witness for the amended trailing-missing-labels theorem. -/
theorem extract_trailing_missing_witness :
    (3 : Nat) ≤ 3 ∧
    extract_sections (mkTextUpTo 3 [Char.ofNat 97] [Char.ofNat 98] [Char.ofNat 99]) =
      ⟨[Char.ofNat 97], [Char.ofNat 98], [], []⟩ := by
  constructor
  · decide
  · have h := extract_trailing_missing 3 [Char.ofNat 97] [Char.ofNat 98] [Char.ofNat 99]
      (by decide) (by decide) (by decide) (by decide) (by decide)
    rw [h]
    decide

/-- Claim C3 (failing input): on a table with a `thread_text` column and one
row whose free-text cell is missing (NaN under `read_csv(dtype=str)`), the
batch step raises `TypeError` from `re.search` on a non-string — the
uncaught exception aborts the pipeline instead of completing with a
one-row WorkingRow table. -/
theorem batch_crashes_on_missing_cell :
    load_and_process (some ⟨[threadTextKey], [[none]]⟩) = LoadResult.typeErrorCrash := by
  decide

/-- Claim C9: an unreadable/unparseable file, an empty table, and a table
without a `thread_text` column each surface an error to the caller (the
`st.error` branches returning an empty DataFrame) and halt the pipeline with
no WorkingRow table produced. -/
theorem load_error_paths :
    load_and_process none = LoadResult.readError ∧
    (∀ df : Table, dfEmpty df = true →
      load_and_process (some df) = LoadResult.emptyError) ∧
    (∀ df : Table, dfEmpty df = false → findTextColumn df.colNames = none →
      load_and_process (some df) = LoadResult.missingColumnError) := by
  refine ⟨rfl, ?_, ?_⟩
  · intro df h
    simp [load_and_process, h]
  · intro df h1 h2
    simp [load_and_process, h1, h2]

/-- Witness for the error-path theorem at a concrete empty table. -/
theorem load_error_paths_witness :
    dfEmpty ⟨[threadTextKey], []⟩ = true ∧
    load_and_process (some ⟨[threadTextKey], []⟩) = LoadResult.emptyError :=
  ⟨by decide, load_error_paths.2.1 ⟨[threadTextKey], []⟩ (by decide)⟩

/-- One `bump` adds exactly one to the total count. -/
theorem sumCounts_bump (m : List (Str × Nat)) (k : Str) :
    sumCounts (bump m k) = sumCounts m + 1 := by
  induction m with
  | nil => rfl
  | cons y rest ih =>
    obtain ⟨k2, v⟩ := y
    by_cases h : k2 = k
    · simp [bump, h, sumCounts]
      omega
    · simp only [bump, h, if_false]
      simp only [sumCounts, List.map_cons, List.sum_cons] at ih ⊢
      omega

/-- Folding `bump` over a list adds the list length to the total count. -/
theorem sumCounts_foldl_bump (l : List Str) (m : List (Str × Nat)) :
    sumCounts (l.foldl bump m) = sumCounts m + l.length := by
  induction l generalizing m with
  | nil => simp
  | cons a l ih =>
    simp only [List.foldl_cons, List.length_cons, ih, sumCounts_bump]
    omega

/-- The keyword dictionary total equals the number of (row, keyword) pairs. -/
theorem sumCounts_keyword_freq (rows : List WorkingRow) :
    sumCounts (keyword_freq rows) = (rows.map (fun r => r.keywordList.length)).sum := by
  suffices h : ∀ m, sumCounts (rows.foldl (fun m r => r.keywordList.foldl bump m) m) =
      sumCounts m + (rows.map (fun r => r.keywordList.length)).sum by
    simpa [keyword_freq, sumCounts] using h []
  induction rows with
  | nil => intro m; simp
  | cons r rows ih =>
    intro m
    simp only [List.foldl_cons, List.map_cons, List.sum_cons, ih, sumCounts_foldl_bump]
    omega

/-- Stable descending insertion is a permutation of consing. -/
theorem insertDesc_perm (x : Str × Nat) (l : List (Str × Nat)) :
    (insertDesc x l).Perm (x :: l) := by
  induction l with
  | nil => exact List.Perm.refl _
  | cons y rest ih =>
    by_cases h : x.2 ≤ y.2
    · simp only [insertDesc, h, if_true]
      exact List.Perm.trans (List.Perm.cons y ih) (List.Perm.swap x y rest)
    · simp only [insertDesc, h, if_false]
      exact List.Perm.refl _

/-- The descending count sort is a permutation of its input. -/
theorem sortCountDesc_perm (l : List (Str × Nat)) : (sortCountDesc l).Perm l := by
  induction l with
  | nil => exact List.Perm.refl _
  | cons x l ih =>
    exact List.Perm.trans (insertDesc_perm x (sortCountDesc l)) (List.Perm.cons x ih)

/-- Count totals are stable under permutation. -/
theorem sumCounts_perm {l1 l2 : List (Str × Nat)} (h : l1.Perm l2) :
    sumCounts l1 = sumCounts l2 := by
  unfold sumCounts
  exact (h.map (fun p : Str × Nat => p.2)).sum_eq

/-- Claim C6: the counts in the sorted keyword frequency table sum to the
total number of (row, keyword) pairs across all rows. -/
theorem keyword_freq_total_pairs (rows : List WorkingRow) :
    sumCounts (sorted_keywords rows) =
      (rows.map (fun r => r.keywordList.length)).sum := by
  rw [sorted_keywords, sumCounts_perm (sortCountDesc_perm _), sumCounts_keyword_freq]

/-- `bump` preserves a key invariant together with count positivity. -/
theorem bump_inv (Q : Str → Prop) {m : List (Str × Nat)} {k : Str}
    (hm : ∀ p ∈ m, Q p.1 ∧ 1 ≤ p.2) (hk : Q k) :
    ∀ p ∈ bump m k, Q p.1 ∧ 1 ≤ p.2 := by
  induction m with
  | nil =>
    intro p hp
    simp only [bump, List.mem_singleton] at hp
    subst hp
    exact ⟨hk, le_refl 1⟩
  | cons y rest ih =>
    obtain ⟨k2, v⟩ := y
    intro p hp
    by_cases h : k2 = k
    · simp only [bump, h, if_true, List.mem_cons] at hp
      rcases hp with rfl | hp
      · subst h
        refine ⟨hk, by omega⟩
      · exact hm p (List.mem_cons_of_mem _ hp)
    · simp only [bump, h, if_false, List.mem_cons] at hp
      rcases hp with rfl | hp
      · exact hm (k2, v) (List.mem_cons_self _ _)
      · exact ih (fun q hq => hm q (List.mem_cons_of_mem _ hq)) p hp

/-- Folding `bump` preserves the key invariant and count positivity. -/
theorem foldl_bump_inv (Q : Str → Prop) (l : List Str) (m : List (Str × Nat))
    (hm : ∀ p ∈ m, Q p.1 ∧ 1 ≤ p.2) (hl : ∀ k ∈ l, Q k) :
    ∀ p ∈ l.foldl bump m, Q p.1 ∧ 1 ≤ p.2 := by
  induction l generalizing m with
  | nil => simpa using hm
  | cons a l ih =>
    intro p hp
    simp only [List.foldl_cons] at hp
    exact ih (bump m a) (bump_inv Q hm (hl a (List.mem_cons_self _ _)))
      (fun k hk => hl k (List.mem_cons_of_mem _ hk)) p hp

/-- Claim C7: the anxiety count table counts exactly the rows whose anxiety
value is neither empty nor whitespace-only (each key strips non-empty, and
the kept counts total the number of kept rows), and the appended synthetic
Total entry equals the sum of all other entries. -/
theorem anxiety_total_and_filter (rows : List WorkingRow) :
    (anxiety_df_with_total rows).getLast? =
      some (totalLbl, sumCounts ((anxiety_df_with_total rows).dropLast)) ∧
    sumCounts ((anxiety_df_with_total rows).dropLast) = (anxietyKept rows).length ∧
    ∀ p ∈ (anxiety_df_with_total rows).dropLast, (!(pyStrip p.1).isEmpty) = true := by
  have hdl : (anxiety_df_with_total rows).dropLast = value_counts (anxietyKept rows) := by
    simp [anxiety_df_with_total]
  have hsum : sumCounts (value_counts (anxietyKept rows)) = (anxietyKept rows).length := by
    rw [value_counts, sumCounts_perm (sortCountDesc_perm _)]
    simpa [sumCounts] using sumCounts_foldl_bump (anxietyKept rows) []
  refine ⟨?_, ?_, ?_⟩
  · rw [hdl]
    simp [anxiety_df_with_total, List.getLast?_concat]
  · rw [hdl, hsum]
  · rw [hdl]
    intro p hp
    have hl : ∀ k ∈ anxietyKept rows, (!(pyStrip k).isEmpty) = true := by
      intro k hk
      simp only [anxietyKept, List.mem_filter] at hk
      exact hk.2
    have hp2 : p ∈ (anxietyKept rows).foldl bump [] :=
      (sortCountDesc_perm _).mem_iff.1 hp
    exact (foldl_bump_inv _ _ _ (by simp) hl p hp2).1

/-- The underscore split never returns an empty list of pieces. -/
theorem splitUnd_ne_nil (s : Str) : splitUnd s ≠ [] := by
  induction s with
  | nil => simp [splitUnd]
  | cons c rest ih =>
    by_cases h : c = '_'
    · simp [splitUnd, h]
    · simp only [splitUnd, h, if_false]
      cases hs : splitUnd rest with
      | nil => exact absurd hs ih
      | cons p ps => simp [consHead]

/-- No piece produced by the underscore split contains an underscore. -/
theorem splitUnd_no_underscore (s : Str) : ∀ p ∈ splitUnd s, '_' ∉ p := by
  induction s with
  | nil =>
    intro p hp
    simp only [splitUnd, List.mem_singleton] at hp
    subst hp
    simp
  | cons c rest ih =>
    intro p hp
    by_cases h : c = '_'
    · simp only [splitUnd, h, if_true, List.mem_cons] at hp
      rcases hp with rfl | hp
      · simp
      · exact ih p hp
    · simp only [splitUnd, h, if_false] at hp
      cases hs : splitUnd rest with
      | nil => exact absurd hs (splitUnd_ne_nil rest)
      | cons q qs =>
        rw [hs] at hp
        simp only [consHead, List.mem_cons] at hp
        rcases hp with rfl | hp
        · intro hmem
          rcases List.mem_cons.1 hmem with hc | hq
          · exact h hc.symm
          · exact ih q (by rw [hs]; exact List.mem_cons_self q qs) hq
        · exact ih p (by rw [hs]; exact List.mem_cons_of_mem q hp)

/-- The head surviving a `dropWhile` fails the predicate. -/
theorem dropWhile_head_false {p : Char → Bool} {l t : Str} {c : Char}
    (h : l.dropWhile p = c :: t) : p c = false := by
  induction l with
  | nil => simp [List.dropWhile] at h
  | cons a rest ih =>
    by_cases ha : p a = true
    · rw [List.dropWhile_cons_of_pos ha] at h
      exact ih h
    · rw [List.dropWhile_cons_of_neg ha] at h
      injection h with h1 h2
      subst h1
      simpa using ha

/-- The leading `dropWhile` of `pyStrip` is the stripped value plus a tail. -/
theorem pyStrip_decomp (s : Str) : ∃ u, s.dropWhile pySpace = pyStrip s ++ u := by
  obtain ⟨u2, hu2⟩ := dropWhile_exists_append pySpace (s.dropWhile pySpace).reverse
  refine ⟨u2.reverse, ?_⟩
  have := congrArg List.reverse hu2
  simpa [pyStrip, List.reverse_append] using this

/-- The first character of a stripped string is not whitespace. -/
theorem pyStrip_head {s t : Str} {c : Char} (h : pyStrip s = c :: t) :
    pySpace c = false := by
  obtain ⟨u, hu⟩ := pyStrip_decomp s
  rw [h] at hu
  exact dropWhile_head_false (by simpa using hu)

/-- The last character of a stripped string is not whitespace. -/
theorem pyStrip_last {s : Str} {c : Char} (h : (pyStrip s).getLast? = some c) :
    pySpace c = false := by
  have hrev : (pyStrip s).reverse = ((s.dropWhile pySpace).reverse).dropWhile pySpace := by
    simp [pyStrip]
  rw [← List.head?_reverse, hrev] at h
  cases hd : ((s.dropWhile pySpace).reverse).dropWhile pySpace with
  | nil => rw [hd] at h; simp at h
  | cons d u =>
    rw [hd] at h
    simp only [List.head?_cons, Option.some.injEq] at h
    subst h
    exact dropWhile_head_false hd

/-- A string whose first and last characters are not whitespace strips to
itself. -/
theorem pyStrip_stripped_of {l : Str}
    (hhead : ∀ c t, l = c :: t → pySpace c = false)
    (hlast : ∀ c, l.getLast? = some c → pySpace c = false) :
    pyStrip l = l := by
  cases l with
  | nil => rfl
  | cons c t =>
    have hc : pySpace c = false := hhead c t rfl
    have h1 : (c :: t).dropWhile pySpace = c :: t :=
      List.dropWhile_cons_of_neg (by simp [hc])
    cases hr : (c :: t).reverse with
    | nil => simp at hr
    | cons d u =>
      have hd : (c :: t).getLast? = some d := by
        rw [← List.head?_reverse, hr]
        rfl
      have hdf : pySpace d = false := hlast d hd
      have h2 : (c :: t).reverse.dropWhile pySpace = (c :: t).reverse := by
        rw [hr]
        exact List.dropWhile_cons_of_neg (by simp [hdf])
      calc pyStrip (c :: t)
          = (((c :: t).dropWhile pySpace).reverse.dropWhile pySpace).reverse := rfl
        _ = ((c :: t).reverse.dropWhile pySpace).reverse := by rw [h1]
        _ = ((c :: t).reverse).reverse := by rw [h2]
        _ = c :: t := List.reverse_reverse _

/-- Python stripping is idempotent. -/
theorem pyStrip_idem (s : Str) : pyStrip (pyStrip s) = pyStrip s := by
  apply pyStrip_stripped_of
  · intro c t h
    exact pyStrip_head h
  · intro c h
    exact pyStrip_last h

/-- Every token is non-empty, trimmed, and underscore-free. -/
theorem tokenize_props {raw kw : Str} (h : kw ∈ tokenize raw) :
    kw ≠ [] ∧ pyStrip kw = kw ∧ '_' ∉ kw := by
  simp only [tokenize, List.mem_filterMap] at h
  obtain ⟨piece, hmem, hval⟩ := h
  by_cases hp : pyStrip piece = []
  · rw [if_pos hp] at hval
    exact absurd hval (by simp)
  · rw [if_neg hp] at hval
    have hkw : kw = pyStrip piece := by simpa using hval.symm
    subst hkw
    refine ⟨hp, pyStrip_idem piece, ?_⟩
    intro hmem2
    obtain ⟨u, w, hpiece⟩ := pyStrip_infix piece
    have hin : '_' ∈ piece := by
      rw [hpiece]
      simp [hmem2]
    exact splitUnd_no_underscore raw piece hmem hin

/-- A successfully built row carries the keyword list of its extracted text. -/
theorem buildRow_ok {df : Table} {j : Nat} {r : List (Option Str)} {w : WorkingRow}
    (h : buildRow df j r = .ok w) :
    ∃ t : Str, w.keywordList = tokenize (extract_sections t).importantKeywords := by
  unfold buildRow at h
  cases hc : r.getD j none with
  | none => rw [hc] at h; simp at h
  | some t =>
    rw [hc] at h
    simp only [Except.ok.injEq] at h
    exact ⟨t, by rw [← h]⟩

/-- A successful batch preserves the row count and produces only rows whose
keyword list comes from `tokenize` on extracted text. -/
theorem batchRows_ok {df : Table} {j : Nat} {rs : List (List (Option Str))}
    {ws : List WorkingRow} (h : batchRows df j rs = .ok ws) :
    ws.length = rs.length ∧
      ∀ w ∈ ws, ∃ t : Str,
        w.keywordList = tokenize (extract_sections t).importantKeywords := by
  induction rs generalizing ws with
  | nil =>
    simp only [batchRows, Except.ok.injEq] at h
    subst h
    simp
  | cons r rest ih =>
    simp only [batchRows] at h
    cases hb : buildRow df j r with
    | error e => rw [hb] at h; simp at h
    | ok w =>
      rw [hb] at h
      cases hbr : batchRows df j rest with
      | error e => rw [hbr] at h; simp at h
      | ok ws2 =>
        rw [hbr] at h
        simp only [Except.ok.injEq] at h
        subst h
        obtain ⟨hlen, hall⟩ := ih hbr
        refine ⟨by simp [hlen], ?_⟩
        intro w2 hw2
        rcases List.mem_cons.1 hw2 with rfl | hw2
        · exact buildRow_ok hb
        · exact hall w2 hw2

/-- Claim C10 (invariant): in every WorkingRow table the pipeline produces,
every element of every KeywordList is a non-empty string with no leading or
trailing whitespace and no underscore, and every keyword-frequency entry has
such a key and a count of at least 1. -/
theorem keywordList_invariant (file : Option Table) (rows : List WorkingRow)
    (h : load_and_process file = .ok rows) :
    (∀ r ∈ rows, ∀ kw ∈ r.keywordList, kw ≠ [] ∧ pyStrip kw = kw ∧ '_' ∉ kw) ∧
    (∀ p ∈ sorted_keywords rows,
      (p.1 ≠ [] ∧ pyStrip p.1 = p.1 ∧ '_' ∉ p.1) ∧ 1 ≤ p.2) := by
  have hrows : ∀ r ∈ rows, ∃ t : Str,
      r.keywordList = tokenize (extract_sections t).importantKeywords := by
    cases file with
    | none => simp [load_and_process] at h
    | some df =>
      simp only [load_and_process] at h
      split at h
      · simp at h
      · split at h
        · simp at h
        · rename_i j hc
          split at h
          · simp at h
          · rename_i ws hb
            simp only [LoadResult.ok.injEq] at h
            subst h
            exact (batchRows_ok hb).2
  have hkwprops : ∀ r ∈ rows, ∀ kw ∈ r.keywordList,
      kw ≠ [] ∧ pyStrip kw = kw ∧ '_' ∉ kw := by
    intro r hr kw hkw
    obtain ⟨t, ht⟩ := hrows r hr
    rw [ht] at hkw
    exact tokenize_props hkw
  refine ⟨hkwprops, ?_⟩
  intro p hp
  have hp2 : p ∈ keyword_freq rows := (sortCountDesc_perm _).mem_iff.1 hp
  have hmain : ∀ (rs : List WorkingRow) (m : List (Str × Nat)),
      (∀ q ∈ m, (q.1 ≠ [] ∧ pyStrip q.1 = q.1 ∧ '_' ∉ q.1) ∧ 1 ≤ q.2) →
      (∀ r ∈ rs, ∀ kw ∈ r.keywordList, kw ≠ [] ∧ pyStrip kw = kw ∧ '_' ∉ kw) →
      ∀ q ∈ rs.foldl (fun m r => r.keywordList.foldl bump m) m,
        (q.1 ≠ [] ∧ pyStrip q.1 = q.1 ∧ '_' ∉ q.1) ∧ 1 ≤ q.2 := by
    intro rs
    induction rs with
    | nil => intro m hm _ q hq; exact hm q hq
    | cons r rs ih =>
      intro m hm hall q hq
      simp only [List.foldl_cons] at hq
      exact ih (r.keywordList.foldl bump m)
        (foldl_bump_inv _ _ _ hm (fun kw hkw => hall r (List.mem_cons_self _ _) kw hkw))
        (fun r2 hr2 => hall r2 (List.mem_cons_of_mem _ hr2)) q hq
  exact hmain rows [] (by simp) hkwprops p hp2

/-- Witness for the keyword invariant at a concrete one-row upload. -/
theorem keywordList_invariant_witness :
    load_and_process (some ⟨[threadTextKey], [[some (lblKeywords ++ " a_b ".toList)]]⟩) =
      LoadResult.ok [⟨[], [], [], ['a', '_', 'b'], [['a'], ['b']],
        some [], some [], some [], some []⟩] ∧
    ((['a'] : Str) ≠ [] ∧ pyStrip ['a'] = ['a'] ∧ '_' ∉ (['a'] : Str)) := by
  constructor
  · decide
  · exact (keywordList_invariant
        (some ⟨[threadTextKey], [[some (lblKeywords ++ " a_b ".toList)]]⟩)
        [⟨[], [], [], ['a', '_', 'b'], [['a'], ['b']], some [], some [], some [], some []⟩]
        (by decide)).1
      ⟨[], [], [], ['a', '_', 'b'], [['a'], ['b']], some [], some [], some [], some []⟩
      (by decide) ['a'] (by decide)

/-- Parsing trimmed non-empty keywords reduces to lowercasing them. -/
theorem filterMap_parse_eq_map {keywords : List Str}
    (h : ∀ kw ∈ keywords, pyStrip kw = kw ∧ kw ≠ []) :
    keywords.filterMap
        (fun kw => if pyStrip kw = [] then none else some (lowerStr (pyStrip kw))) =
      keywords.map lowerStr := by
  induction keywords with
  | nil => rfl
  | cons a l ih =>
    obtain ⟨ha1, ha2⟩ := h a (List.mem_cons_self _ _)
    simp [List.filterMap_cons, ha1, ha2,
      ih (fun kw hkw => h kw (List.mem_cons_of_mem _ hkw))]

/-- Membership in the lowercased list matches elementwise lowercase equality. -/
theorem contains_map_lower (ks : List Str) (kw : Str) :
    (ks.map lowerStr).contains (lowerStr kw) =
      ks.any (fun k => lowerStr k == lowerStr kw) := by
  induction ks with
  | nil => rfl
  | cons k ks ih =>
    simp only [List.map_cons, List.contains_cons, List.any_cons, ih]
    congr 1
    exact Bool.beq_comm

/-- Claim C8: on trimmed non-empty keywords, `filtered_df_text` returns
exactly the rows whose KeywordList contains at least one of the keywords
under case-insensitive comparison; and the keyword lists `Refund,REFUND`
and `refund` select identical rows. -/
theorem byAnyKeyword_ci :
    (∀ (rows : List WorkingRow) (keywords : List Str),
      (∀ kw ∈ keywords, pyStrip kw = kw ∧ kw ≠ []) →
      filtered_df_text rows keywords =
        rows.filter (fun r => anyKeywordCI keywords r)) ∧
    (∀ rows : List WorkingRow,
      filtered_df_text rows ["Refund".toList, "REFUND".toList] =
        filtered_df_text rows ["refund".toList]) := by
  constructor
  · intro rows keywords h
    unfold filtered_df_text
    rw [filterMap_parse_eq_map h]
    apply List.filter_congr
    intro r _
    simp only [List.any_map, anyKeywordCI, Function.comp]
    congr 1
    funext kw
    exact contains_map_lower r.keywordList kw
  · intro rows
    unfold filtered_df_text
    have h1 : (["Refund".toList, "REFUND".toList] : List Str).filterMap
        (fun kw => if pyStrip kw = [] then none else some (lowerStr (pyStrip kw))) =
        ["refund".toList, "refund".toList] := by decide
    have h2 : (["refund".toList] : List Str).filterMap
        (fun kw => if pyStrip kw = [] then none else some (lowerStr (pyStrip kw))) =
        ["refund".toList] := by decide
    rw [h1, h2]
    apply List.filter_congr
    intro r _
    cases hc : (r.keywordList.map lowerStr).contains ("refund".toList) <;>
      simp [List.any_cons, List.any_nil, hc]

/-- Witness for the case-insensitive multi-keyword filter theorem. -/
theorem byAnyKeyword_ci_witness :
    (∀ kw ∈ (["refund".toList] : List Str), pyStrip kw = kw ∧ kw ≠ []) ∧
    filtered_df_text
        [⟨[], [], [], [], ["Refund".toList], none, none, none, none⟩]
        ["refund".toList] =
      List.filter (fun r => anyKeywordCI ["refund".toList] r)
        [⟨[], [], [], [], ["Refund".toList], none, none, none, none⟩] :=
  ⟨by decide, byAnyKeyword_ci.1
    [⟨[], [], [], [], ["Refund".toList], none, none, none, none⟩]
    ["refund".toList] (by decide)⟩

/-- The empty-language pattern matches nothing. -/
theorem pmatch_bot (w : Str) : pmatch .bot w = false := by
  induction w with
  | nil => rfl
  | cons c rest ih => simpa [pmatch, deriv] using ih

/-- Matching distributes over alternation. -/
theorem pmatch_alt (p q : Pat) (w : Str) :
    pmatch (.alt p q) w = (pmatch p w || pmatch q w) := by
  induction w generalizing p q with
  | nil => rfl
  | cons c rest ih => simpa [pmatch, deriv] using ih (deriv p c) (deriv q c)

/-- A concatenation headed by the empty language matches nothing. -/
theorem pmatch_cat_bot (q : Pat) (w : Str) : pmatch (.cat .bot q) w = false := by
  induction w with
  | nil => rfl
  | cons c rest ih => simpa [pmatch, deriv, nullable] using ih

/-- A concatenation headed by epsilon matches like its tail. -/
theorem pmatch_cat_eps (q : Pat) (w : Str) : pmatch (.cat .eps q) w = pmatch q w := by
  cases w with
  | nil => simp [pmatch, nullable]
  | cons c rest =>
    show pmatch (deriv (.cat .eps q) c) rest = pmatch (deriv q c) rest
    have hd : deriv (.cat .eps q) c = .alt (.cat .bot q) (deriv q c) := by
      simp [deriv, nullable]
    rw [hd, pmatch_alt, pmatch_cat_bot]
    simp

/-- The literal pattern matches exactly its own string. -/
theorem pmatch_litPat (l w : Str) : pmatch (litPat l) w = decide (w = l) := by
  induction l generalizing w with
  | nil =>
    cases w with
    | nil => rfl
    | cons c rest => simp [litPat, pmatch, deriv, pmatch_bot]
  | cons a l ih =>
    cases w with
    | nil => simp [litPat, pmatch, nullable]
    | cons c rest =>
      by_cases hac : a = c
      · subst hac
        have hd : deriv (litPat (a :: l)) a = .cat .eps (litPat l) := by
          simp [litPat, deriv, nullable]
        calc pmatch (litPat (a :: l)) (a :: rest)
            = pmatch (deriv (litPat (a :: l)) a) rest := rfl
          _ = pmatch (.cat .eps (litPat l)) rest := by rw [hd]
          _ = pmatch (litPat l) rest := pmatch_cat_eps _ _
          _ = decide (rest = l) := ih rest
          _ = decide (a :: rest = a :: l) := by simp
      · have hd : deriv (litPat (a :: l)) c = .cat .bot (litPat l) := by
          simp [litPat, deriv, nullable, hac]
        calc pmatch (litPat (a :: l)) (c :: rest)
            = pmatch (deriv (litPat (a :: l)) c) rest := rfl
          _ = pmatch (.cat .bot (litPat l)) rest := by rw [hd]
          _ = false := pmatch_cat_bot _ _
          _ = decide (c :: rest = a :: l) := by simp [Ne.symm hac]

/-- `findIn` never reports an index beyond the string length. -/
theorem findIn_le {pat s : Str} {i : Nat} (h : findIn pat s = some i) :
    i ≤ s.length := by
  induction s generalizing i with
  | nil =>
    unfold findIn at h
    by_cases hp : isPrefixL pat [] = true
    · simp [hp] at h
      omega
    · simp [hp] at h
  | cons c rest ih =>
    unfold findIn at h
    by_cases hp : isPrefixL pat (c :: rest) = true
    · simp [hp] at h
      omega
    · simp [hp] at h
      obtain ⟨i2, hi2, rfl⟩ := h
      have := ih hi2
      simp only [List.length_cons]
      omega

/-- A `take` of a list passes the prefix test against it. -/
theorem isPrefixL_take_self (x : Str) (n : Nat) : isPrefixL (x.take n) x = true :=
  (isPrefixL_iff_append _ _).2 ⟨x.drop n, (List.take_append_drop n x).symm⟩

/-- Searching for a literal pattern is substring containment. -/
theorem reSearch_litPat (l s : Str) : reSearch (litPat l) s = containsSubstr s l := by
  cases hcs : containsSubstr s l with
  | true =>
    unfold containsSubstr at hcs
    cases hf : findIn l s with
    | none => rw [hf] at hcs; simp at hcs
    | some i =>
      have hocc : occursAt l s i = true := occursAt_of_findIn_some hf
      have hil : i ≤ s.length := findIn_le hf
      have hlen : l.length ≤ s.length - i := by
        have h2 := isPrefixL_length hocc
        simpa using h2
      obtain ⟨t, ht⟩ := (isPrefixL_iff_append _ _).1 hocc
      unfold reSearch
      rw [List.any_eq_true]
      refine ⟨i, List.mem_range.2 (by omega), ?_⟩
      rw [List.any_eq_true]
      refine ⟨l.length, List.mem_range.2 (by omega), ?_⟩
      rw [pmatch_litPat]
      apply decide_eq_true
      rw [ht, List.take_left]
  | false =>
    unfold containsSubstr at hcs
    have hnone : findIn l s = none := by
      cases hf : findIn l s with
      | none => rfl
      | some i => rw [hf] at hcs; simp at hcs
    have hall := occursAt_false_of_findIn_none hnone
    cases hrs : reSearch (litPat l) s with
    | false => rfl
    | true =>
      exfalso
      unfold reSearch at hrs
      rw [List.any_eq_true] at hrs
      obtain ⟨i, hi, hinner⟩ := hrs
      rw [List.any_eq_true] at hinner
      obtain ⟨n, hn, hm⟩ := hinner
      rw [pmatch_litPat] at hm
      have heq : (s.drop i).take n = l := of_decide_eq_true hm
      have hpre : isPrefixL l (s.drop i) = true := by
        rw [← heq]
        exact isPrefixL_take_self _ n
      have := hall i
      rw [occursAt] at this
      rw [this] at hpre
      exact Bool.false_ne_true hpre

/-- A literal character is none of the structural pattern characters. -/
theorem literal_not_meta {c : Char} (h : isLiteralChar c = true) :
    c ≠ '(' ∧ c ≠ ')' ∧ c ≠ '|' ∧ c ≠ '.' ∧ c ≠ Char.ofNat 92 ∧
      c ≠ '*' ∧ c ≠ '+' ∧ c ≠ '?' := by
  refine ⟨?_, ?_, ?_, ?_, ?_, ?_, ?_, ?_⟩ <;>
    · intro hc
      subst hc
      exact absurd h (by decide)

/-- A repetition suffix does not trigger on a literal remainder. -/
theorem applyReps_literal (a : Pat) {r : Str}
    (h : ∀ c ∈ r, isLiteralChar c = true) : applyReps a r = (a, r) := by
  cases r with
  | nil => rfl
  | cons c r2 =>
    obtain ⟨_, _, _, _, _, hs, hp, hq⟩ := literal_not_meta (h c (List.mem_cons_self _ _))
    simp [applyReps, hs, hp, hq]

/-- The concatenation parser maps a fully literal input to its literal
pattern. -/
theorem parseP_seq_literal (l : Str) (f : Nat) (hl : ∀ c ∈ l, isLiteralChar c = true)
    (hf : l.length + 1 ≤ f) : parseP f 1 l = .ok (litPat l, []) := by
  induction l generalizing f with
  | nil =>
    cases f with
    | zero => omega
    | succ f2 => simp [parseP, litPat]
  | cons c rest ih =>
    cases f with
    | zero => simp at hf
    | succ f2 =>
      have hc := hl c (List.mem_cons_self _ _)
      obtain ⟨hno, hnc, hnb, hnd, hne2, _, _, _⟩ := literal_not_meta hc
      have hrest : ∀ d ∈ rest, isLiteralChar d = true :=
        fun d hd => hl d (List.mem_cons_of_mem _ hd)
      have hatom : parseP f2 2 (c :: rest) = .ok (.lit c, rest) := by
        cases f2 with
        | zero => simp only [List.length_cons] at hf; omega
        | succ f3 => simp [parseP, hno, hnd, hne2, hc]
      have hseq : parseP f2 1 rest = .ok (litPat rest, []) := by
        apply ih
        · exact hrest
        · simp only [List.length_cons] at hf
          omega
      simp [parseP, hnc, hnb, hatom, applyReps_literal _ hrest, hseq, litPat]

/-- The alternation parser succeeds on what the concatenation parser fully
consumed. -/
theorem parseP_alt_of_seq {f : Nat} {s : Str} {p : Pat}
    (h : parseP f 1 s = .ok (p, [])) : parseP (f + 1) 0 s = .ok (p, []) := by
  simp [parseP, h]

/-- The full parser maps a fully literal input to its literal pattern. -/
theorem parseRe_literal {s : Str} (hl : ∀ c ∈ s, isLiteralChar c = true) :
    parseRe s = .ok (litPat s) := by
  have hseq : parseP (2 * s.length + 1) 1 s = .ok (litPat s, []) :=
    parseP_seq_literal s _ hl (by omega)
  have halt := parseP_alt_of_seq hseq
  have h2 : 2 * s.length + 2 = 2 * s.length + 1 + 1 := by omega
  unfold parseRe
  rw [h2, halt]

/-- Lowercasing keeps ordinary characters ordinary. -/
theorem isLiteralChar_lowerChar {c : Char} (h : isLiteralChar c = true) :
    isLiteralChar (lowerChar c) = true := by
  unfold lowerChar
  cases hf : upperLower.find? (fun p => p.1 == c) with
  | none => exact h
  | some p =>
    have hp : p ∈ upperLower := List.mem_of_find?_eq_some hf
    have hall : ∀ q ∈ upperLower, isLiteralChar q.2 = true := by decide
    exact hall p hp

/-- Lowercasing keeps a fully ordinary string fully ordinary. -/
theorem lowerStr_literal {s : Str} (hl : ∀ c ∈ s, isLiteralChar c = true) :
    ∀ c ∈ lowerStr s, isLiteralChar c = true := by
  intro c hc
  simp only [lowerStr, List.mem_map] at hc
  obtain ⟨d, hd, rfl⟩ := hc
  exact isLiteralChar_lowerChar (hl d hd)

/-- Claim C2 (amended): for a non-empty search string of ordinary characters
(no regex metacharacters), both text searches succeed and return exactly the
rows whose field value contains the string as a case-insensitive substring,
and an empty field value never matches; a search string with regex syntax is
instead interpreted as a regular expression and can fail to compile. -/
theorem byTextContains_literal (rows : List WorkingRow) (s : Str)
    (hne : s ≠ []) (hl : ∀ c ∈ s, isLiteralChar c = true) :
    filtered_issue_df rows s =
      .ok (rows.filter (fun r => ciContains r.customerIssue s)) ∧
    filtered_action_df rows s =
      .ok (rows.filter (fun r => ciContains r.agentActions s)) ∧
    ciContains [] s = false := by
  have hparse : parseRe (lowerStr s) = .ok (litPat (lowerStr s)) :=
    parseRe_literal (lowerStr_literal hl)
  have hsearch : ∀ v : Str, reSearch (litPat (lowerStr s)) (lowerStr v) =
      ciContains v s := fun v => reSearch_litPat (lowerStr s) (lowerStr v)
  have hne2 : lowerStr s ≠ [] := by
    cases s with
    | nil => exact absurd rfl hne
    | cons c rest => simp [lowerStr]
  refine ⟨?_, ?_, ?_⟩
  · have hfc : rows.filter (fun r => reSearch (litPat (lowerStr s))
        (lowerStr r.customerIssue)) =
        rows.filter (fun r => ciContains r.customerIssue s) :=
      List.filter_congr (fun r _ => hsearch r.customerIssue)
    simp only [filtered_issue_df, hparse, hfc]
  · have hfc : rows.filter (fun r => reSearch (litPat (lowerStr s))
        (lowerStr r.agentActions)) =
        rows.filter (fun r => ciContains r.agentActions s) :=
      List.filter_congr (fun r _ => hsearch r.agentActions)
    simp only [filtered_action_df, hparse, hfc]
  · show (findIn (lowerStr s) (lowerStr [])).isSome = false
    cases hs2 : lowerStr s with
    | nil => exact absurd hs2 hne2
    | cons c rest => simp [lowerStr, findIn, isPrefixL]

/-- Witness for the literal-search theorem at a concrete row. -/
theorem byTextContains_literal_witness :
    ("card".toList ≠ ([] : Str)) ∧
    filtered_issue_df [⟨"Card declined".toList, [], [], [], [], none, none, none, none⟩]
        "card".toList =
      .ok (List.filter (fun r => ciContains r.customerIssue "card".toList)
        [⟨"Card declined".toList, [], [], [], [], none, none, none, none⟩]) :=
  ⟨by decide,
    (byTextContains_literal
      [⟨"Card declined".toList, [], [], [], [], none, none, none, none⟩]
      "card".toList (by decide) (by decide)).1⟩

/-- Claim C2 counterexample: the search input is compiled as a regular
expression, not matched as a literal substring — the input `a.c` selects the
row whose Customer Issue is `abc` although `a.c` is not a substring of
`abc`. -/
theorem byTextContains_counterexample :
    filtered_issue_df [⟨"abc".toList, [], [], [], [], none, none, none, none⟩]
        "a.c".toList =
      .ok [⟨"abc".toList, [], [], [], [], none, none, none, none⟩] ∧
    ciContains "abc".toList "a.c".toList = false := by
  exact ⟨rfl, by decide⟩

end EchoMap
